import Mathlib

/-
A shallow embedding of the file-encryption core of this repository
(src/IO/FileEncryptionCommon.h): the 128-bit initialization-vector counter
(InitVector) and the CTR-mode stream cipher codec (Encryptor), together
with proofs of the specified properties.

Bytes are modelled as natural numbers, byte strings as lists of natural
numbers, the 128-bit UInt128 counter as a natural number with arithmetic
taken modulo 2 ^ 128.  C++ member functions that mutate the object are
modelled as functions returning a pair (returned value, updated object).
Fallible operations return Except.
-/

namespace FileEncryption

/-- The modulus of the 128-bit counter type UInt128. -/
def U128 : Nat := 2 ^ 128

/-- Initialization vector.  The source stores a single field
UInt128 counter = 0; modelled as a natural number (counter values are
below 2 ^ 128, every operation reduces modulo 2 ^ 128). -/
structure InitVector where
  counter : Nat
deriving DecidableEq

/-- InitVector::kSize: a serialized initialization vector is always 16 bytes. -/
def InitVector.kSize : Nat := 16

/-- InitVector::get: returns the counter value. -/
def InitVector.get (iv : InitVector) : Nat := iv.counter

/-- InitVector::set: stores the given counter value.  The C++ argument is a
UInt128, so the natural-number argument is reduced modulo 2 ^ 128. -/
def InitVector.set (_iv : InitVector) (c : Nat) : InitVector :=
  InitVector.mk (c % U128)

/-- InitVector::operator++() (the form without an argument): ++counter;
return *this.  The first component is the returned value, the second the
updated object; for this operator they coincide.  UInt128 increment wraps
modulo 2 ^ 128. -/
def InitVector.opPlusPlusPre (iv : InitVector) : InitVector × InitVector :=
  let s : InitVector := InitVector.mk ((iv.counter + 1) % U128)
  (s, s)

/-- InitVector::operator++(int) (the form with an int argument):
InitVector res = *this; ++counter; return res.  Returns the value held
before the increment. -/
def InitVector.opPlusPlusPost (iv : InitVector) : InitVector × InitVector :=
  let res := iv
  (res, InitVector.mk ((iv.counter + 1) % U128))

/-- InitVector::operator+=(size_t offset): counter += offset; return *this.
UInt128 addition wraps modulo 2 ^ 128. -/
def InitVector.opPlusEq (iv : InitVector) (offset : Nat) : InitVector × InitVector :=
  let s : InitVector := InitVector.mk ((iv.counter + offset) % U128)
  (s, s)

/-- InitVector::operator+(size_t offset) const:
InitVector res = *this; return res += offset.  Being const, the object
itself is left unchanged (second component). -/
def InitVector.opPlus (iv : InitVector) (offset : Nat) : InitVector × InitVector :=
  let res := iv
  ((InitVector.opPlusEq res offset).1, iv)

/-- Big-endian byte decomposition: the low k bytes of v, most significant
byte first. -/
def bytesBE : Nat → Nat → List Nat
  | 0, _ => []
  | k + 1, v => bytesBE k (v / 256) ++ [v % 256]

/-- Reassembles a big-endian byte string into a natural number. -/
def fromBytesBE (s : List Nat) : Nat :=
  s.foldl (fun acc b => acc * 256 + b) 0

/-- Modelled from the spec: InitVector::toString (its body is not in the
source tree) writes the 16 bytes of the counter to a string in big-endian
order, most significant byte first. -/
def InitVector.toString (iv : InitVector) : List Nat :=
  bytesBE InitVector.kSize iv.counter

/-- Modelled from the spec: InitVector::fromString (its body is not in the
source tree) converts a string of 16 bytes in big-endian order to a
counter, failing with an invalid-argument error when the string length is
not 16. -/
def InitVector.fromString (s : List Nat) : Except String InitVector :=
  if s.length = InitVector.kSize then
    Except.ok (InitVector.mk (fromBytesBE s))
  else
    Except.error "invalid length of string"

/-- Modelled from the spec: InitVector::read (its body is not in the source
tree) deserializes exactly 16 bytes, big-endian, from the source, failing
with a size error when fewer than 16 bytes are available.  The source is
modelled as the list of available bytes; on success the remaining bytes
are returned alongside the counter. -/
def InitVector.read (src : List Nat) : Except String (InitVector × List Nat) :=
  if src.length < InitVector.kSize then
    Except.error "unexpected end of stream"
  else
    Except.ok
      (InitVector.mk (fromBytesBE (src.take InitVector.kSize)),
       src.drop InitVector.kSize)

/-- Modelled from the spec: isKeyLengthSupported (its body is not in the
source tree) returns true iff the key length in bytes is 16, 24 or 32
(a 128-, 192- or 256-bit key). -/
def isKeyLengthSupported (key_length : Nat) : Bool :=
  key_length == 16 || key_length == 24 || key_length == 32

/-- Modelled from the spec: the block size of the CTR-mode ciphers
(aes_128_ctr, aes_192_ctr, aes_256_ctr) is fixed at 16 bytes. -/
def blockSize : Nat := 16

/-- Encrypts or decrypts data.  The source fields are the key, the base
initialization vector and the cipher selected from the key length; the
single mutable field is the current logical offset.  The OpenSSL cipher
implementation is not in the source tree, so the keystream generator is
kept abstract: evp_cipher ctr i is keystream byte i (0 ≤ i < 16) of the
block whose counter value is ctr. -/
structure Encryptor where
  key : List Nat
  init_vector : InitVector
  evp_cipher : Nat → Nat → Nat
  offset : Nat

/-- Modelled from the spec: the Encryptor constructor (its body is not in
the source tree) validates that the key length is 16, 24 or 32 bytes,
failing with an unsupported-key-length error otherwise, selects the cipher
variant from the key once, stores key and base counter, and starts at
offset 0.  The cipher selection (OpenSSL EVP, not in the source tree) is
abstracted by the parameter cipher, mapping a key to its keystream
generator. -/
def Encryptor.create (cipher : List Nat → Nat → Nat → Nat)
    (key : List Nat) (iv : InitVector) : Except String Encryptor :=
  if isKeyLengthSupported key.length then
    Except.ok
      { key := key, init_vector := iv, evp_cipher := cipher key, offset := 0 }
  else
    Except.error "unsupported key length"

/-- Encryptor::setOffset: sets the current position in the data stream from
the very beginning of data. -/
def Encryptor.setOffset (e : Encryptor) (offset_ : Nat) : Encryptor :=
  { e with offset := offset_ }

/-- Modelled from the spec: the CTR-mode keystream for one call.  Starting
from block counter ctr, byte i of the raw keystream comes from the block
with counter value (ctr + i / 16) mod 2 ^ 128 at position i mod 16: the
counter increments standardly across block boundaries. -/
def callKeystream (cipherK : Nat → Nat → Nat) (ctr n : Nat) : List Nat :=
  (List.range n).map fun i => cipherK ((ctr + i / blockSize) % U128) (i % blockSize)

/-- Modelled from the spec: Encryptor::encrypt (its body is not in the
source tree).  For a call processing the given data at the current offset:
blockCounter = baseCounter + offset / 16 (UInt128 addition, modulo 2^128),
skip = offset mod 16 leading keystream bytes of the first block are
discarded, the keystream is XORed with the data to produce exactly
size bytes of output, and offset advances by size.  Returns the
ciphertext written to the output buffer and the updated encryptor. -/
def Encryptor.encrypt (e : Encryptor) (data : List Nat) : List Nat × Encryptor :=
  let blockCounter := (e.init_vector.counter + e.offset / blockSize) % U128
  let skip := e.offset % blockSize
  let keystream := callKeystream e.evp_cipher blockCounter (skip + data.length)
  let out := List.zipWith Nat.xor data (keystream.drop skip)
  (out, { e with offset := e.offset + data.length })

/-- Modelled from the spec: Encryptor::decrypt (its body is not in the
source tree).  CTR mode is self-inverse, so decryption is the identical
transform: the same keystream alignment, XOR with the data, exactly
size bytes of output, and offset advances by size. -/
def Encryptor.decrypt (e : Encryptor) (data : List Nat) : List Nat × Encryptor :=
  let blockCounter := (e.init_vector.counter + e.offset / blockSize) % U128
  let skip := e.offset % blockSize
  let keystream := callKeystream e.evp_cipher blockCounter (skip + data.length)
  let out := List.zipWith Nat.xor data (keystream.drop skip)
  (out, { e with offset := e.offset + data.length })

/-- The spec's per-byte formulation of keystream positioning: the byte at
absolute logical offset o is transformed by XOR with keystream byte
(o mod 16) of the block generated from counter value
baseCounter + o / 16 (modulo 2 ^ 128). -/
def keystreamByte (cipherK : Nat → Nat → Nat) (base o : Nat) : Nat :=
  cipherK ((base + o / blockSize) % U128) (o % blockSize)

/-- Encrypting a sequence of chunks with one Encryptor, letting the offset
advance naturally between calls; returns the concatenated ciphertext and
the final encryptor state. -/
def encryptChunks (e : Encryptor) : List (List Nat) → List Nat × Encryptor
  | [] => ([], e)
  | c :: cs =>
    let r := e.encrypt c
    let rs := encryptChunks r.2 cs
    (r.1 ++ rs.1, rs.2)

theorem getD_map_range (f : Nat → Nat) (n j : Nat) (h : j < n) :
    ((List.range n).map f).getD j 0 = f j := by
  rw [List.getD_eq_getElem _ 0 (by simpa using h)]
  simp

theorem length_callKeystream (c : Nat → Nat → Nat) (ctr n : Nat) :
    (callKeystream c ctr n).length = n := by
  simp [callKeystream]

theorem length_encrypt_out (e : Encryptor) (data : List Nat) :
    (e.encrypt data).1.length = data.length := by
  simp only [Encryptor.encrypt, List.length_zipWith, List.length_drop,
    length_callKeystream]
  omega

theorem length_decrypt_out (e : Encryptor) (data : List Nat) :
    (e.decrypt data).1.length = data.length := by
  simp only [Encryptor.decrypt, List.length_zipWith, List.length_drop,
    length_callKeystream]
  omega

/-- The ciphertext of one call, byte by byte: byte j of the output is byte
j of the input XORed with the keystream byte for absolute logical offset
offset + j. -/
theorem encrypt_eq_map (e : Encryptor) (data : List Nat) :
    (e.encrypt data).1 =
      (List.range data.length).map fun j =>
        Nat.xor (data.getD j 0)
          (keystreamByte e.evp_cipher e.init_vector.counter (e.offset + j)) := by
  apply List.ext_getElem
  · simp [length_encrypt_out]
  · intro i h1 h2
    have hi : i < data.length := by
      simpa [length_encrypt_out] using h1
    have hks : i < ((callKeystream e.evp_cipher
        ((e.init_vector.counter + e.offset / blockSize) % U128)
        (e.offset % blockSize + data.length)).drop (e.offset % blockSize)).length := by
      simp only [List.length_drop, length_callKeystream]
      omega
    simp only [Encryptor.encrypt, callKeystream, List.getElem_zipWith,
      List.getElem_drop, List.getElem_map, List.getElem_range]
    rw [List.getD_eq_getElem data 0 hi]
    congr 1
    unfold keystreamByte
    rw [Nat.mod_add_mod]
    have hdiv : e.offset / blockSize + (e.offset % blockSize + i) / blockSize
        = (e.offset + i) / blockSize := by
      simp only [blockSize]; omega
    have hmod : (e.offset % blockSize + i) % blockSize = (e.offset + i) % blockSize := by
      simp only [blockSize]; omega
    rw [Nat.add_assoc, hdiv, hmod]

/-- Decrypt performs the identical transform as encrypt. -/
theorem decrypt_eq_encrypt (e : Encryptor) (data : List Nat) :
    e.decrypt data = e.encrypt data := rfl

/-- C3: for every byte at absolute logical offset o = offset + j, encrypt
transforms it by XOR with keystream byte (o mod 16) of the keystream block
generated from counter value baseCounter + o / 16 (modulo 2 ^ 128); the
call-level formulation with blockCounter = baseCounter + offset / 16 and
skip = offset mod 16 discarded leading bytes (the definition of encrypt)
is equivalent to this per-byte formulation. -/
theorem encrypt_keystream_positioning (e : Encryptor) (data : List Nat)
    (j : Nat) (hj : j < data.length) :
    (e.encrypt data).1.getD j 0 =
      Nat.xor (data.getD j 0)
        (e.evp_cipher ((e.init_vector.counter + (e.offset + j) / 16) % 2 ^ 128)
          ((e.offset + j) % 16)) := by
  rw [encrypt_eq_map, getD_map_range _ _ _ hj]
  rfl

/-- C3 witness. -/
theorem encrypt_keystream_positioning_witness :
    (0 : Nat) < 3 ∧
      (Encryptor.encrypt
          { key := [1], init_vector := InitVector.mk 7,
            evp_cipher := fun c i => (c + i) % 256, offset := 21 }
          [10, 20, 30]).1.getD 0 0 =
        Nat.xor ([10, 20, 30].getD 0 0)
          (((7 + (21 + 0) / 16) % 2 ^ 128 + (21 + 0) % 16) % 256) :=
  ⟨by decide,
    encrypt_keystream_positioning
      { key := [1], init_vector := InitVector.mk 7,
        evp_cipher := fun c i => (c + i) % 256, offset := 21 }
      [10, 20, 30] 0 (by decide)⟩

theorem encrypt_nil (e : Encryptor) : e.encrypt [] = ([], e) := by
  cases e
  simp [Encryptor.encrypt]

/-- The ciphertext of a call on an appended input splits as the ciphertext
of the first part followed by the ciphertext of the second part produced by
the updated encryptor. -/
theorem encrypt_out_append (e : Encryptor) (p q : List Nat) :
    (e.encrypt (p ++ q)).1 = (e.encrypt p).1 ++ ((e.encrypt p).2.encrypt q).1 := by
  rw [encrypt_eq_map, encrypt_eq_map, encrypt_eq_map]
  simp only [Encryptor.encrypt]
  rw [List.length_append, List.range_add p.length q.length, List.map_append,
    List.map_map]
  congr 1
  · apply List.map_congr_left
    intro a ha
    have ha2 : a < p.length := List.mem_range.mp ha
    rw [List.getD_append _ _ _ _ ha2]
  · apply List.map_congr_left
    intro a ha
    have ha2 : a < q.length := List.mem_range.mp ha
    simp only [Function.comp_apply]
    rw [List.getD_append_right _ _ _ _ (by omega)]
    have hsub : p.length + a - p.length = a := by omega
    have hoff : e.offset + (p.length + a) = e.offset + p.length + a := by omega
    rw [hsub, hoff]

theorem encrypt_state_append (e : Encryptor) (p q : List Nat) :
    ((e.encrypt p).2.encrypt q).2 = (e.encrypt (p ++ q)).2 := by
  simp only [Encryptor.encrypt, List.length_append]
  congr 1
  omega

/-- Encrypting a list of chunks in sequence, letting the offset advance
naturally, produces the same ciphertext and the same final state as one
call on the concatenation. -/
theorem encryptChunks_eq (chunks : List (List Nat)) :
    ∀ e : Encryptor, encryptChunks e chunks = e.encrypt chunks.flatten := by
  induction chunks with
  | nil =>
    intro e
    rw [encryptChunks, List.flatten_nil, encrypt_nil]
  | cons c cs ih =>
    intro e
    rw [encryptChunks, ih (e.encrypt c).2, List.flatten_cons]
    exact Prod.ext (encrypt_out_append e c cs.flatten).symm
      (encrypt_state_append e c cs.flatten)

/-- Decrypting the output of encrypt with the same key, base counter and
offset recovers the input: the keystream bytes coincide positionally and
XOR is an involution. -/
theorem decrypt_encrypt_aux (e : Encryptor) (p : List Nat) :
    (e.decrypt (e.encrypt p).1).1 = p := by
  have hc : (e.encrypt p).1.length = p.length := length_encrypt_out e p
  apply List.ext_getElem
  · rw [length_decrypt_out, hc]
  · intro i h1 h2
    have hic : i < (e.encrypt p).1.length := by rw [hc]; exact h2
    rw [← List.getD_eq_getElem _ 0 h1, decrypt_eq_encrypt,
      encrypt_keystream_positioning e _ i hic,
      encrypt_keystream_positioning e p i h2,
      ← List.getD_eq_getElem p 0 h2]
    exact Nat.xor_cancel_right _ _

/-- C1: chunk independence of encryption.  For every keystream generator,
every key of valid length and every base counter, and for every way of
splitting a byte sequence into consecutive chunks, calling encrypt on each
chunk in sequence (letting the offset advance naturally between calls)
produces the same concatenated ciphertext, and the same final state, as a
single encrypt call over the whole sequence starting at offset 0. -/
theorem encrypt_chunk_independence (cipher : List Nat → Nat → Nat → Nat)
    (key : List Nat) (iv : InitVector) (chunks : List (List Nat))
    (hkey : isKeyLengthSupported key.length = true) :
    encryptChunks
        { key := key, init_vector := iv, evp_cipher := cipher key, offset := 0 }
        chunks =
      Encryptor.encrypt
        { key := key, init_vector := iv, evp_cipher := cipher key, offset := 0 }
        chunks.flatten :=
  encryptChunks_eq chunks _

/-- C1 witness. -/
theorem encrypt_chunk_independence_witness :
    isKeyLengthSupported (List.replicate 16 (1 : Nat)).length = true ∧
      encryptChunks
          { key := List.replicate 16 (1 : Nat), init_vector := InitVector.mk 3,
            evp_cipher := (fun k c i => (k.length + c + i) % 256) (List.replicate 16 (1 : Nat)),
            offset := 0 }
          [[10, 20], [30], [], [40, 50, 60]] =
        Encryptor.encrypt
          { key := List.replicate 16 (1 : Nat), init_vector := InitVector.mk 3,
            evp_cipher := (fun k c i => (k.length + c + i) % 256) (List.replicate 16 (1 : Nat)),
            offset := 0 }
          [[10, 20], [30], [], [40, 50, 60]].flatten :=
  ⟨by decide,
    encrypt_chunk_independence (fun k c i => (k.length + c + i) % 256)
      (List.replicate 16 (1 : Nat)) (InitVector.mk 3)
      [[10, 20], [30], [], [40, 50, 60]] (by decide)⟩

/-- C2: encrypt/decrypt round trip.  For every keystream generator, every
key of valid length, every base counter, every starting offset and every
byte sequence p, decrypting at offset o the ciphertext produced by
encrypting p at offset o returns exactly p. -/
theorem encrypt_decrypt_roundtrip (cipher : List Nat → Nat → Nat → Nat)
    (key : List Nat) (iv : InitVector) (o : Nat) (p : List Nat)
    (hkey : isKeyLengthSupported key.length = true) :
    (Encryptor.decrypt
        { key := key, init_vector := iv, evp_cipher := cipher key, offset := o }
        (Encryptor.encrypt
          { key := key, init_vector := iv, evp_cipher := cipher key, offset := o }
          p).1).1 = p :=
  decrypt_encrypt_aux _ p

/-- C2 witness. -/
theorem encrypt_decrypt_roundtrip_witness :
    isKeyLengthSupported (List.replicate 24 (7 : Nat)).length = true ∧
      (Encryptor.decrypt
          { key := List.replicate 24 (7 : Nat), init_vector := InitVector.mk 9,
            evp_cipher := (fun k c i => (k.length * c + i) % 256) (List.replicate 24 (7 : Nat)),
            offset := 21 }
          (Encryptor.encrypt
            { key := List.replicate 24 (7 : Nat), init_vector := InitVector.mk 9,
              evp_cipher := (fun k c i => (k.length * c + i) % 256) (List.replicate 24 (7 : Nat)),
              offset := 21 }
            [72, 69, 76, 76, 79]).1).1 = [72, 69, 76, 76, 79] :=
  ⟨by decide,
    encrypt_decrypt_roundtrip (fun k c i => (k.length * c + i) % 256)
      (List.replicate 24 (7 : Nat)) (InitVector.mk 9) 21
      [72, 69, 76, 76, 79] (by decide)⟩

/-- C4: per-call postcondition.  Every call of encrypt or decrypt on size
bytes produces exactly size bytes of output, and afterwards the state is
the old state with offset advanced by size (all other fields unchanged),
so a subsequent call continues exactly where this one left off. -/
theorem encrypt_decrypt_postcondition (e : Encryptor) (data : List Nat) :
    (e.encrypt data).1.length = data.length ∧
      (e.encrypt data).2 = { e with offset := e.offset + data.length } ∧
      (e.decrypt data).1.length = data.length ∧
      (e.decrypt data).2 = { e with offset := e.offset + data.length } :=
  ⟨length_encrypt_out e data, rfl, length_decrypt_out e data, rfl⟩

/-- C9: a zero-size call is a no-op.  Encrypt and decrypt on an empty input
write no output bytes and leave the encryptor (offset included) unchanged. -/
theorem encrypt_decrypt_zero_size_noop (e : Encryptor) :
    e.encrypt [] = ([], e) ∧ e.decrypt [] = ([], e) :=
  ⟨encrypt_nil e, by rw [decrypt_eq_encrypt]; exact encrypt_nil e⟩

theorem length_bytesBE (k : Nat) : ∀ v : Nat, (bytesBE k v).length = k := by
  induction k with
  | zero => intro v; rfl
  | succ k ih => intro v; simp [bytesBE, ih]

theorem fromBytesBE_bytesBE (k : Nat) :
    ∀ v : Nat, fromBytesBE (bytesBE k v) = v % 256 ^ k := by
  induction k with
  | zero =>
    intro v
    simp [bytesBE, fromBytesBE, Nat.mod_one]
  | succ k ih =>
    intro v
    have h1 : fromBytesBE (bytesBE k (v / 256) ++ [v % 256])
        = fromBytesBE (bytesBE k (v / 256)) * 256 + v % 256 := by
      unfold fromBytesBE
      rw [List.foldl_append]
      simp
    rw [bytesBE, h1, ih (v / 256), pow_succ, Nat.mul_comm (256 ^ k) 256,
      Nat.mod_mul]
    omega

/-- C6: counter serialization round trip.  For every 128-bit value v, the
serialized counter is a string of exactly 16 bytes (big-endian, most
significant byte first), and fromString applied to it yields the counter v
back. -/
theorem counter_serialization_roundtrip (v : Nat) (hv : v < 2 ^ 128) :
    (InitVector.toString (InitVector.mk v)).length = 16 ∧
      InitVector.fromString (InitVector.toString (InitVector.mk v)) =
        Except.ok (InitVector.mk v) := by
  have hlen : (InitVector.toString (InitVector.mk v)).length = 16 :=
    length_bytesBE InitVector.kSize v
  refine ⟨hlen, ?_⟩
  rw [InitVector.fromString]
  simp only [InitVector.kSize]
  rw [if_pos hlen, InitVector.toString]
  have h256 : (256 : Nat) ^ 16 = 2 ^ 128 := by norm_num
  rw [show InitVector.kSize = 16 from rfl, fromBytesBE_bytesBE 16 v, h256,
    Nat.mod_eq_of_lt hv]

/-- C6 witness. -/
theorem counter_serialization_roundtrip_witness :
    (1234567890123456789012345678901234567 : Nat) < 2 ^ 128 ∧
      ((InitVector.toString (InitVector.mk 1234567890123456789012345678901234567)).length = 16 ∧
        InitVector.fromString
            (InitVector.toString (InitVector.mk 1234567890123456789012345678901234567)) =
          Except.ok (InitVector.mk 1234567890123456789012345678901234567)) :=
  ⟨by norm_num,
    counter_serialization_roundtrip 1234567890123456789012345678901234567 (by norm_num)⟩

/-- C7: counter arithmetic wraps modulo 2 ^ 128.  The increment operators
and the addition operators compute modulo 2 ^ 128 as total functions (no
error), and incrementing a counter holding the maximum 128-bit value
yields zero. -/
theorem counter_arithmetic_wraps (c n : Nat) :
    ((InitVector.mk c).opPlusPlusPre).2.counter = (c + 1) % 2 ^ 128 ∧
      ((InitVector.mk c).opPlusPlusPost).2.counter = (c + 1) % 2 ^ 128 ∧
      ((InitVector.mk c).opPlusEq n).2.counter = (c + n) % 2 ^ 128 ∧
      ((InitVector.mk c).opPlus n).1.counter = (c + n) % 2 ^ 128 ∧
      ((InitVector.mk (2 ^ 128 - 1)).opPlusPlusPre).2.counter = 0 := by
  refine ⟨rfl, rfl, rfl, rfl, ?_⟩
  show (2 ^ 128 - 1 + 1) % 2 ^ 128 = 0
  norm_num

/-- C10: mutation discipline of the counter operators.  operator+ returns a
fresh counter holding (get + n) mod 2 ^ 128 while leaving the object
unchanged; operator+= updates the object to that value and returns the
updated object itself; the form of operator++ with an int argument returns
the value held before the increment while the other form returns the
incremented counter. -/
theorem counter_add_frame (iv : InitVector) (n : Nat) :
    (iv.opPlus n).1.counter = (iv.get + n) % 2 ^ 128 ∧
      (iv.opPlus n).2 = iv ∧
      iv.opPlusEq n =
        (InitVector.mk ((iv.get + n) % 2 ^ 128),
         InitVector.mk ((iv.get + n) % 2 ^ 128)) ∧
      (iv.opPlusPlusPost).1 = iv ∧
      (iv.opPlusPlusPost).2.counter = (iv.get + 1) % 2 ^ 128 ∧
      (iv.opPlusPlusPre).1 = (iv.opPlusPlusPre).2 ∧
      (iv.opPlusPlusPre).2.counter = (iv.get + 1) % 2 ^ 128 :=
  ⟨rfl, rfl, rfl, rfl, rfl, rfl, rfl⟩

/-- C5: key length gate.  isKeyLengthSupported n is true exactly for
n in {16, 24, 32} and for no other n (a total function), and constructing
an Encryptor with a key of any other length fails with the
unsupported-key-length error, producing no encryptor. -/
theorem key_length_gate :
    (∀ n : Nat, isKeyLengthSupported n = true ↔ n = 16 ∨ n = 24 ∨ n = 32) ∧
      (∀ (cipher : List Nat → Nat → Nat → Nat) (key : List Nat) (iv : InitVector),
        isKeyLengthSupported key.length = false →
          Encryptor.create cipher key iv = Except.error "unsupported key length") := by
  constructor
  · intro n
    simp [isKeyLengthSupported, or_assoc]
  · intro cipher key iv h
    simp [Encryptor.create, h]

/-- C5 witness. -/
theorem key_length_gate_witness :
    isKeyLengthSupported 24 = true ∧
      isKeyLengthSupported ([1, 2, 3] : List Nat).length = false ∧
      Encryptor.create (fun _ _ _ => 0) [1, 2, 3] (InitVector.mk 0) =
        Except.error "unsupported key length" :=
  ⟨(key_length_gate.1 24).mpr (Or.inr (Or.inl rfl)), by decide,
    key_length_gate.2 (fun _ _ _ => 0) [1, 2, 3] (InitVector.mk 0) (by decide)⟩

/-- C8: malformed counter deserialization fails.  fromString fails with an
invalid-argument error exactly when the string length is not 16, succeeding
on every 16-byte string; read fails with a size error when fewer than 16
bytes are available from the source. -/
theorem malformed_counter_fails :
    (∀ s : List Nat,
        (∃ iv, InitVector.fromString s = Except.ok iv) ↔ s.length = 16) ∧
      (∀ src : List Nat, src.length < 16 →
        InitVector.read src = Except.error "unexpected end of stream") := by
  constructor
  · intro s
    by_cases h : s.length = InitVector.kSize
    · simp only [InitVector.fromString, if_pos h]
      exact ⟨fun _ => h, fun _ => ⟨InitVector.mk (fromBytesBE s), rfl⟩⟩
    · simp only [InitVector.fromString, if_neg h]
      constructor
      · rintro ⟨iv, hiv⟩
        exact absurd hiv (by simp)
      · intro hl
        exact absurd hl h
  · intro src h
    rw [InitVector.read]
    simp only [InitVector.kSize]
    rw [if_pos h]

/-- C8 witness. -/
theorem malformed_counter_fails_witness :
    (∃ iv, InitVector.fromString (List.replicate 16 (0 : Nat)) = Except.ok iv) ∧
      ([1, 2, 3] : List Nat).length < 16 ∧
      InitVector.read [1, 2, 3] = Except.error "unexpected end of stream" :=
  ⟨(malformed_counter_fails.1 (List.replicate 16 (0 : Nat))).mpr (by decide),
    by decide, malformed_counter_fails.2 [1, 2, 3] (by decide)⟩

end FileEncryption
